import Mathlib

/-!
Shallow embedding of the Rust library `rust-week-2-exercises` (src/lib.rs).
Bytes are modelled as `Nat` values below 256; strings as Lean `String`
(character level); fallible Rust functions return `Except`.
-/

namespace RustWeek2

/-- Structured hex-decoding error, mirroring `hex::FromHexError`. -/
inductive FromHexError where
  | InvalidHexCharacter (c : Char) (index : Nat)
  | OddLength
  | InvalidStringLength
deriving DecidableEq, Repr

/-- The `Display` rendering of `hex::FromHexError` (`e.to_string()` in Rust). -/
def FromHexError.toDisplay : FromHexError → String
  | .InvalidHexCharacter c index =>
      "Invalid character '" ++ String.singleton c ++ "' at position " ++ toString index
  | .OddLength => "Odd number of digits"
  | .InvalidStringLength => "Invalid string length"

/-- Value of one hex digit character, mirroring the `val` helper of the
`hex` crate (`A..F`, `a..f`, `0..9`, case-insensitive). -/
def hexVal (c : Char) : Option Nat :=
  if 65 ≤ c.toNat ∧ c.toNat ≤ 70 then some (c.toNat - 65 + 10)
  else if 97 ≤ c.toNat ∧ c.toNat ≤ 102 then some (c.toNat - 97 + 10)
  else if 48 ≤ c.toNat ∧ c.toNat ≤ 57 then some (c.toNat - 48)
  else none

/-- Decode consecutive pairs of hex digits, tracking the character index for
error reporting, mirroring `hex`'s `chunks(2)` loop. -/
def decodePairs : List Char → Nat → Except FromHexError (List Nat)
  | [], _ => .ok []
  | [_], _ => .error .OddLength
  | c1 :: c2 :: rest, idx =>
    match hexVal c1 with
    | none => .error (.InvalidHexCharacter c1 idx)
    | some hi =>
      match hexVal c2 with
      | none => .error (.InvalidHexCharacter c2 (idx + 1))
      | some lo => (decodePairs rest (idx + 2)).map (fun bs => (hi * 16 + lo) :: bs)

/-- Model of `hex::decode`: odd-length inputs are rejected up front, then digit pairs
are decoded left to right. -/
def hexCrateDecode (s : String) : Except FromHexError (List Nat) :=
  if s.length % 2 ≠ 0 then .error .OddLength
  else decodePairs s.data 0

/-- Rust `decode_hex`: wraps `hex::decode`, stringifying the error. -/
def decode_hex (s : String) : Except String (List Nat) :=
  (hexCrateDecode s).mapError FromHexError.toDisplay

/-- Rust `hex_to_bytes`: returns `hex::decode`'s result unchanged. -/
def hex_to_bytes (s : String) : Except FromHexError (List Nat) :=
  hexCrateDecode s

/-- Lowercase hex digit character for a value below 16, mirroring the
`hex` crate's encoding table `"0123456789abcdef"`. -/
def hexDigit (n : Nat) : Char :=
  if n < 10 then Char.ofNat (48 + n) else Char.ofNat (97 + n - 10)

/-- Rust `bytes_to_hex`: `hex::encode`, two lowercase digits per byte
(high nibble first). -/
def bytes_to_hex (bytes : List Nat) : String :=
  String.mk (bytes.flatMap fun b => [hexDigit (b / 16), hexDigit (b % 16)])

/-- Decimal digit value, as in Rust's `char::to_digit(10)` used by
`u64::from_str`. -/
def digitVal (c : Char) : Option Nat :=
  if 48 ≤ c.toNat ∧ c.toNat ≤ 57 then some (c.toNat - 48) else none

/-- The accumulation loop of Rust `u64::from_str_radix(_, 10)`: multiply by
ten and add each digit, failing on a non-digit or on overflow past `2^64`. -/
def parseDigits : List Char → Nat → Option Nat
  | [], acc => some acc
  | c :: rest, acc =>
    match digitVal c with
    | none => none
    | some d =>
      if acc * 10 + d < 2 ^ 64 then parseDigits rest (acc * 10 + d) else none

/-- Rust `u64::from_str` on the character list: empty input fails; one
optional leading `+` is stripped (a bare `+` fails); a leading `-` is not a
digit, so it fails. -/
def parseU64Chars : List Char → Option Nat
  | [] => none
  | c :: rest =>
    if c = '+' then
      match rest with
      | [] => none
      | _ => parseDigits rest 0
    else parseDigits (c :: rest) 0

/-- Rust `u64::from_str` on a string. -/
def parseU64 (s : String) : Option Nat :=
  parseU64Chars s.data

/-- Rust `parse_satoshis`: `input.parse::<u64>()` with every error mapped to
the fixed string. -/
def parse_satoshis (s : String) : Except String Nat :=
  match parseU64 s with
  | some n => .ok n
  | none => .error "Invalid satoshi amount"

/-- Rust `ScriptType` enumeration. -/
inductive ScriptType where
  | P2PKH
  | P2WPKH
  | Unknown
deriving DecidableEq, Repr

/-- Rust `classify_script`: prefix match on `[0x76, 0xa9, 0x14]`, then on
`[0x00, 0x14]`, else `Unknown`. -/
def classify_script (script : List Nat) : ScriptType :=
  if [0x76, 0xa9, 0x14].isPrefixOf script then ScriptType.P2PKH
  else if [0x00, 0x14].isPrefixOf script then ScriptType.P2WPKH
  else ScriptType.Unknown

/-- Rust `read_pushdata`: the slice `&script[2..]`, which panics (here:
`none`) when the script is shorter than 2 bytes. -/
def read_pushdata (script : List Nat) : Option (List Nat) :=
  if 2 ≤ script.length then some (script.drop 2) else none

/-- Rust `Opcode` enumeration. -/
inductive Opcode where
  | OpChecksig
  | OpDup
  | OpInvalid
deriving DecidableEq, Repr

/-- Two-digit lowercase hex rendering of a byte, as Rust's `{:02x}` on `u8`. -/
def byteHex (b : Nat) : String :=
  String.mk [hexDigit (b / 16), hexDigit (b % 16)]

/-- Rust `Opcode::from_byte`: `0xac → OpChecksig`, `0x76 → OpDup`, any other
byte yields `"Invalid opcode: 0x.."` naming the byte in hex. -/
def Opcode.from_byte (byte : Nat) : Except String Opcode :=
  if byte = 0xac then .ok .OpChecksig
  else if byte = 0x76 then .ok .OpDup
  else .error ("Invalid opcode: 0x" ++ byteHex byte)

/-- Rust `u64::saturating_sub` on the mathematical values. -/
def saturatingSub (a b : Nat) : Nat :=
  if b ≤ a then a - b else 0

/-- Rust `apply_fee`: `*balance = balance.saturating_sub(fee)`; the returned
value is the new contents of the mutable balance. -/
def apply_fee (balance fee : Nat) : Nat :=
  saturatingSub balance fee

instance {ε α : Type} [DecidableEq ε] [DecidableEq α] : DecidableEq (Except ε α)
  | .ok a, .ok b => by
    cases decEq a b with
    | isTrue h => exact isTrue (by rw [h])
    | isFalse h => exact isFalse (by intro hh; cases hh; exact h rfl)
  | .ok _, .error _ => isFalse (by intro hh; cases hh)
  | .error _, .ok _ => isFalse (by intro hh; cases hh)
  | .error e, .error f => by
    cases decEq e f with
    | isTrue h => exact isTrue (by rw [h])
    | isFalse h => exact isFalse (by intro hh; cases hh; exact h rfl)

/-! ## Helper lemmas -/

/-- Helper: `isPrefixOf` on byte lists coincides with equality of the `take` of the
candidate's length. -/
lemma isPrefixOf_take (p : List Nat) : ∀ s : List Nat,
    (p.isPrefixOf s = true ↔ s.take p.length = p) := by
  induction p with
  | nil => intro s; simp [List.isPrefixOf]
  | cons a t ih =>
    intro s
    cases s with
    | nil => simp [List.isPrefixOf]
    | cons b u =>
      simp only [List.isPrefixOf, List.length_cons, List.take_succ_cons,
        Bool.and_eq_true, beq_iff_eq, ih u, List.cons.injEq]
      constructor
      · rintro ⟨h1, h2⟩; exact ⟨h1.symm, h2⟩
      · rintro ⟨h1, h2⟩; exact ⟨h1.symm, h2⟩

/-- Encoding a list of bytes yields two characters per byte. -/
lemma length_encodeChars (b : List Nat) :
    (b.flatMap fun x => [hexDigit (x / 16), hexDigit (x % 16)]).length = 2 * b.length := by
  induction b with
  | nil => rfl
  | cons x t ih => simp only [List.flatMap_cons, List.length_append, ih,
      List.length_cons, List.length_nil, List.length_cons]; omega

/-- Helper: `hexVal` inverts `hexDigit` on nibble values. -/
lemma hexVal_hexDigit : ∀ n, n < 16 → hexVal (hexDigit n) = some n := by decide

/-- Decoding the character encoding of a byte list recovers the list,
whatever the running index. -/
lemma decodePairs_encodeChars (b : List Nat) (h : ∀ x ∈ b, x < 256) :
    ∀ idx, decodePairs (b.flatMap fun x => [hexDigit (x / 16), hexDigit (x % 16)]) idx
      = .ok b := by
  induction b with
  | nil => intro idx; rfl
  | cons x t ih =>
    intro idx
    have hx : x < 256 := h x (List.mem_cons_self x t)
    have h1 : hexVal (hexDigit (x / 16)) = some (x / 16) :=
      hexVal_hexDigit _ (by omega)
    have h2 : hexVal (hexDigit (x % 16)) = some (x % 16) :=
      hexVal_hexDigit _ (Nat.mod_lt _ (by omega))
    have hfm : ((x :: t).flatMap fun y => [hexDigit (y / 16), hexDigit (y % 16)])
        = hexDigit (x / 16) :: hexDigit (x % 16)
          :: (t.flatMap fun y => [hexDigit (y / 16), hexDigit (y % 16)]) := rfl
    rw [hfm]
    simp only [decodePairs, h1, h2]
    rw [ih (fun y hy => h y (List.mem_cons_of_mem _ hy)) (idx + 2)]
    simp only [Except.map, Except.ok.injEq, List.cons.injEq, and_true]
    omega

/-- Any value produced by `hexVal` is a nibble. -/
lemma hexVal_lt (c : Char) (v : Nat) (hv : hexVal c = some v) : v < 16 := by
  rw [hexVal] at hv
  split_ifs at hv with h1 h2 h3 <;> injection hv with hv <;> omega

/-- Helper: `hexDigit` inverts `hexVal` on characters that are not uppercase hex
letters. -/
lemma hexDigit_hexVal (c : Char) (v : Nat) (hv : hexVal c = some v)
    (hl : ¬(65 ≤ c.toNat ∧ c.toNat ≤ 70)) : hexDigit v = c := by
  rw [hexVal, if_neg hl] at hv
  by_cases h2 : 97 ≤ c.toNat ∧ c.toNat ≤ 102
  · rw [if_pos h2] at hv
    injection hv with hv
    rw [hexDigit, if_neg (by omega)]
    have : 97 + v - 10 = c.toNat := by omega
    rw [this, Char.ofNat_toNat]
  · rw [if_neg h2] at hv
    by_cases h3 : 48 ≤ c.toNat ∧ c.toNat ≤ 57
    · rw [if_pos h3] at hv
      injection hv with hv
      rw [hexDigit, if_pos (by omega)]
      have : 48 + v = c.toNat := by omega
      rw [this, Char.ofNat_toNat]
    · rw [if_neg h3] at hv
      exact absurd hv (by simp)

/-- A successful `decodePairs` run on characters free of uppercase hex
letters means the characters are exactly the encoding of the output bytes. -/
lemma decodePairs_chars (l : List Char) (idx : Nat) (b : List Nat)
    (hok : decodePairs l idx = .ok b)
    (hl : ∀ c ∈ l, ¬(65 ≤ c.toNat ∧ c.toNat ≤ 70)) :
    l = b.flatMap fun x => [hexDigit (x / 16), hexDigit (x % 16)] := by
  induction l, idx using decodePairs.induct generalizing b with
  | case1 idx =>
    rw [decodePairs] at hok
    injection hok with hok
    rw [← hok]; rfl
  | case2 c idx =>
    rw [decodePairs] at hok
    exact absurd hok (by simp)
  | case3 c1 c2 rest idx h1 =>
    rw [decodePairs, h1] at hok
    exact absurd hok (by simp)
  | case4 c1 c2 rest idx hi h1 h2 =>
    rw [decodePairs, h1, h2] at hok
    exact absurd hok (by simp)
  | case5 c1 c2 rest idx hi h1 lo h2 ih =>
    rw [decodePairs, h1, h2] at hok
    cases hrest : decodePairs rest (idx + 2) with
    | error e => rw [hrest] at hok; exact absurd hok (by simp [Except.map])
    | ok bs =>
      rw [hrest] at hok
      simp only [Except.map] at hok
      injection hok with hok
      rw [← hok]
      have hc1 : ¬(65 ≤ c1.toNat ∧ c1.toNat ≤ 70) := hl c1 (by simp)
      have hc2 : ¬(65 ≤ c2.toNat ∧ c2.toNat ≤ 70) := hl c2 (by simp)
      have hlo : lo < 16 := hexVal_lt c2 lo h2
      have hdiv : (hi * 16 + lo) / 16 = hi := by omega
      have hmod : (hi * 16 + lo) % 16 = lo := by omega
      simp only [List.flatMap_cons, hdiv, hmod,
        hexDigit_hexVal c1 hi h1 hc1, hexDigit_hexVal c2 lo h2 hc2,
        List.cons_append, List.nil_append, List.cons.injEq, true_and]
      exact ih bs hrest (fun c hc => hl c (by simp [hc]))

/-- Helper: `decodePairs` succeeds exactly on even-length runs of hex digit
characters. -/
lemma decodePairs_isOk (l : List Char) (idx : Nat) :
    (∃ b, decodePairs l idx = .ok b) ↔
      (l.length % 2 = 0 ∧ ∀ c ∈ l, (hexVal c).isSome) := by
  induction l, idx using decodePairs.induct with
  | case1 idx => simp [decodePairs]
  | case2 c idx => simp [decodePairs]
  | case3 c1 c2 rest idx h1 =>
    rw [decodePairs, h1]
    simp only [List.length_cons]
    constructor
    · rintro ⟨b, hb⟩; exact absurd hb (by simp)
    · rintro ⟨_, hall⟩
      exact absurd (hall c1 (by simp)) (by simp [h1])
  | case4 c1 c2 rest idx hi h1 h2 =>
    rw [decodePairs, h1, h2]
    constructor
    · rintro ⟨b, hb⟩; exact absurd hb (by simp)
    · rintro ⟨_, hall⟩
      exact absurd (hall c2 (by simp)) (by simp [h2])
  | case5 c1 c2 rest idx hi h1 lo h2 ih =>
    rw [decodePairs, h1, h2]
    constructor
    · rintro ⟨b, hb⟩
      cases hrest : decodePairs rest (idx + 2) with
      | error e => rw [hrest] at hb; exact absurd hb (by simp [Except.map])
      | ok bs =>
        obtain ⟨hlen, hall⟩ := ih.mp ⟨bs, hrest⟩
        refine ⟨by simp only [List.length_cons]; omega, ?_⟩
        intro c hc
        rcases List.mem_cons.mp hc with h | hc
        · subst h; simp [h1]
        rcases List.mem_cons.mp hc with h | hc
        · subst h; simp [h2]
        · exact hall c hc
    · rintro ⟨hlen, hall⟩
      have hall' : ∀ c ∈ rest, (hexVal c).isSome := fun c hc => hall c (by simp [hc])
      have hlen' : rest.length % 2 = 0 := by
        simp only [List.length_cons] at hlen; omega
      obtain ⟨bs, hbs⟩ := ih.mpr ⟨hlen', hall'⟩
      exact ⟨(hi * 16 + lo) :: bs, by rw [hbs]; rfl⟩

/-- Mathematical value of a digit run continued from an accumulator. -/
def decValFrom (acc : Nat) (l : List Char) : Nat :=
  l.foldl (fun a c => a * 10 + (c.toNat - 48)) acc

/-- The accumulated value never decreases along the digit loop. -/
lemma decValFrom_ge (l : List Char) : ∀ acc, acc ≤ decValFrom acc l := by
  induction l with
  | nil => intro acc; exact le_refl acc
  | cons c t ih =>
    intro acc
    have h1 : decValFrom acc (c :: t) = decValFrom (acc * 10 + (c.toNat - 48)) t := rfl
    rw [h1]
    exact le_trans (by omega) (ih _)

/-- Characterization of the digit loop: starting below `2^64`, it succeeds
exactly when every character is a decimal digit and the accumulated value
stays below `2^64`, returning that value. -/
lemma parseDigits_eq (l : List Char) : ∀ acc, acc < 2 ^ 64 →
    parseDigits l acc =
      if (∀ c ∈ l, 48 ≤ c.toNat ∧ c.toNat ≤ 57) ∧ decValFrom acc l < 2 ^ 64
      then some (decValFrom acc l) else none := by
  induction l with
  | nil =>
    intro acc h
    simp only [parseDigits, decValFrom, List.foldl_nil, List.not_mem_nil,
      false_implies, implies_true, true_and]
    rw [if_pos h]
  | cons c t ih =>
    intro acc hacc
    have hstep : decValFrom acc (c :: t) = decValFrom (acc * 10 + (c.toNat - 48)) t := rfl
    by_cases hc : 48 ≤ c.toNat ∧ c.toNat ≤ 57
    · have hd : digitVal c = some (c.toNat - 48) := by rw [digitVal, if_pos hc]
      simp only [parseDigits, hd]
      by_cases hv : acc * 10 + (c.toNat - 48) < 2 ^ 64
      · rw [if_pos hv, ih _ hv, hstep]
        simp only [List.forall_mem_cons]
        simp [hc]
      · rw [if_neg hv, if_neg]
        rintro ⟨_, hlt⟩
        rw [hstep] at hlt
        have := decValFrom_ge t (acc * 10 + (c.toNat - 48))
        omega
    · have hd : digitVal c = none := by rw [digitVal, if_neg hc]
      simp only [parseDigits, hd]
      rw [if_neg]
      rintro ⟨h1, _⟩
      exact hc (h1 c (List.mem_cons_self c t))

/-! ## Claim theorems -/

/-- C1: `classify_script` is a total function on byte sequences: a sequence
beginning with `[0x76, 0xa9, 0x14]` classifies as P2PKH; otherwise, one
beginning with `[0x00, 0x14]` classifies as P2WPKH; otherwise it is Unknown.
No length validation occurs beyond the prefix match, so the exact 3-byte
input `[0x76, 0xa9, 0x14]` classifies as P2PKH. -/
theorem classify_script_spec (s : List Nat) :
    (s.take 3 = [0x76, 0xa9, 0x14] → classify_script s = ScriptType.P2PKH) ∧
    (s.take 3 ≠ [0x76, 0xa9, 0x14] → s.take 2 = [0x00, 0x14] →
      classify_script s = ScriptType.P2WPKH) ∧
    (s.take 3 ≠ [0x76, 0xa9, 0x14] → s.take 2 ≠ [0x00, 0x14] →
      classify_script s = ScriptType.Unknown) ∧
    classify_script [0x76, 0xa9, 0x14] = ScriptType.P2PKH := by
  refine ⟨?_, ?_, ?_, by decide⟩
  · intro h1
    have hp : [0x76, 0xa9, 0x14].isPrefixOf s = true :=
      (isPrefixOf_take [0x76, 0xa9, 0x14] s).mpr h1
    rw [classify_script, if_pos hp]
  · intro h1 h2
    have hp1 : ¬ ([0x76, 0xa9, 0x14].isPrefixOf s = true) :=
      fun hc => h1 ((isPrefixOf_take [0x76, 0xa9, 0x14] s).mp hc)
    have hp2 : [0x00, 0x14].isPrefixOf s = true :=
      (isPrefixOf_take [0x00, 0x14] s).mpr h2
    rw [classify_script, if_neg hp1, if_pos hp2]
  · intro h1 h2
    have hp1 : ¬ ([0x76, 0xa9, 0x14].isPrefixOf s = true) :=
      fun hc => h1 ((isPrefixOf_take [0x76, 0xa9, 0x14] s).mp hc)
    have hp2 : ¬ ([0x00, 0x14].isPrefixOf s = true) :=
      fun hc => h2 ((isPrefixOf_take [0x00, 0x14] s).mp hc)
    rw [classify_script, if_neg hp1, if_neg hp2]

/-- Witness for C1 at concrete scripts. -/
theorem classify_script_spec_witness :
    classify_script [0x76, 0xa9, 0x14, 0x01] = ScriptType.P2PKH ∧
    classify_script [0x00, 0x14, 0x09] = ScriptType.P2WPKH ∧
    classify_script [0x51] = ScriptType.Unknown :=
  ⟨(classify_script_spec [0x76, 0xa9, 0x14, 0x01]).1 (by decide),
   (classify_script_spec [0x00, 0x14, 0x09]).2.1 (by decide) (by decide),
   (classify_script_spec [0x51]).2.2.1 (by decide) (by decide)⟩

/-- C3: `read_pushdata` returns all bytes from index 2 onward when the script
has at least 2 bytes, and fails (out of bounds) exactly when it has fewer
than 2 bytes; on `[0x76, 0xa9, 0x14, 0x01, 0x02]` it yields
`[0x14, 0x01, 0x02]`. -/
theorem read_pushdata_spec (s : List Nat) :
    (2 ≤ s.length → read_pushdata s = some (s.drop 2)) ∧
    (s.length < 2 → read_pushdata s = none) ∧
    read_pushdata [0x76, 0xa9, 0x14, 0x01, 0x02] = some [0x14, 0x01, 0x02] := by
  refine ⟨fun h => ?_, fun h => ?_, by decide⟩
  · rw [read_pushdata, if_pos h]
  · rw [read_pushdata, if_neg (by omega)]

/-- Witness for C3 at a concrete 5-byte script and a concrete short script. -/
theorem read_pushdata_spec_witness :
    read_pushdata [0x76, 0xa9, 0x14, 0x01, 0x02] =
      some ([0x76, 0xa9, 0x14, 0x01, 0x02].drop 2) ∧
    read_pushdata [0x76] = none :=
  ⟨(read_pushdata_spec [0x76, 0xa9, 0x14, 0x01, 0x02]).1 (by decide),
   (read_pushdata_spec [0x76]).2.1 (by decide)⟩

/-- C5: `Opcode.from_byte` maps `0xac` to `OpChecksig`, `0x76` to `OpDup`,
and every other byte value to an error naming the byte in two-digit
lowercase hexadecimal; in particular `from_byte 0xff` fails with the message
`"Invalid opcode: 0xff"`, which contains `"0xff"`. -/
theorem from_byte_spec :
    Opcode.from_byte 0xac = .ok Opcode.OpChecksig ∧
    Opcode.from_byte 0x76 = .ok Opcode.OpDup ∧
    Opcode.from_byte 0xff = .error "Invalid opcode: 0xff" ∧
    ∀ b : Nat, b < 256 → b ≠ 0xac → b ≠ 0x76 →
      Opcode.from_byte b =
        .error ("Invalid opcode: 0x" ++ String.mk [hexDigit (b / 16), hexDigit (b % 16)]) := by
  refine ⟨by decide, by decide, by decide, fun b _ h1 h2 => ?_⟩
  rw [Opcode.from_byte, if_neg h1, if_neg h2, byteHex]

/-- Witness for C5 at the concrete unrecognized byte `0xff`. -/
theorem from_byte_spec_witness :
    Opcode.from_byte 255 =
      .error ("Invalid opcode: 0x" ++ String.mk [hexDigit (255 / 16), hexDigit (255 % 16)]) :=
  from_byte_spec.2.2.2 255 (by decide) (by decide) (by decide)

/-- C6: `apply_fee` sets the balance to `balance - fee` when the fee does not
exceed the balance and to `0` otherwise (saturating, never underflowing);
in particular `apply_fee 50 100 = 0`. -/
theorem apply_fee_spec (b f : Nat) :
    (f ≤ b → apply_fee b f = b - f) ∧
    (b < f → apply_fee b f = 0) ∧
    apply_fee 50 100 = 0 := by
  refine ⟨fun h => ?_, fun h => ?_, by decide⟩
  · rw [apply_fee, saturatingSub, if_pos h]
  · rw [apply_fee, saturatingSub, if_neg (by omega)]

/-- Witness for C6 at concrete balances and fees. -/
theorem apply_fee_spec_witness :
    apply_fee 100 30 = 100 - 30 ∧ apply_fee 50 100 = 0 :=
  ⟨(apply_fee_spec 100 30).1 (by decide), (apply_fee_spec 50 100).2.1 (by decide)⟩

/-- C2: for every byte sequence `b`, `decode_hex (bytes_to_hex b)` succeeds
and returns `b`. -/
theorem decode_encode_roundtrip (b : List Nat) (h : ∀ x ∈ b, x < 256) :
    decode_hex (bytes_to_hex b) = .ok b := by
  have hdata : (bytes_to_hex b).data
      = b.flatMap fun x => [hexDigit (x / 16), hexDigit (x % 16)] := rfl
  have hlen : (bytes_to_hex b).length % 2 = 0 := by
    show (bytes_to_hex b).data.length % 2 = 0
    rw [hdata, length_encodeChars]; omega
  rw [decode_hex, hexCrateDecode, if_neg (fun hc => hc hlen)]
  rw [hdata, decodePairs_encodeChars b h 0]
  rfl

/-- Witness for C2 at a concrete byte sequence. -/
theorem decode_encode_roundtrip_witness :
    decode_hex (bytes_to_hex [0xde, 0xad, 0xbe, 0xef]) = .ok [0xde, 0xad, 0xbe, 0xef] :=
  decode_encode_roundtrip [0xde, 0xad, 0xbe, 0xef] (by decide)

/-- C7 counterexample: `decode_hex "AB"` succeeds (case-insensitive), but
re-encoding its bytes gives the lowercase `"ab"`, not `"AB"`, so
encode-after-decode is not the identity on every accepted string. -/
theorem encode_decode_counterexample :
    decode_hex "AB" = .ok [171] ∧ bytes_to_hex [171] = "ab" ∧ ("ab" : String) ≠ "AB" :=
  ⟨by decide, by decide, by decide⟩

/-- C7 (amended): `bytes_to_hex` encodes into lowercase hexadecimal, and for
every string `s` accepted by `decode_hex` that contains no uppercase hex
letter (`A`–`F`), `bytes_to_hex` of the decoded bytes gives back `s`. -/
theorem encode_decode_lower (s : String) (b : List Nat)
    (hs : decode_hex s = .ok b)
    (hlower : ∀ c ∈ s.data, ¬(65 ≤ c.toNat ∧ c.toNat ≤ 70)) :
    bytes_to_hex b = s := by
  rw [decode_hex, hexCrateDecode] at hs
  by_cases hlen : s.length % 2 ≠ 0
  · rw [if_pos hlen] at hs; exact absurd hs (by simp [Except.mapError])
  · rw [if_neg hlen] at hs
    cases hd : decodePairs s.data 0 with
    | error e => rw [hd] at hs; exact absurd hs (by simp [Except.mapError])
    | ok bs =>
      rw [hd] at hs
      simp only [Except.mapError] at hs
      injection hs with hs
      subst hs
      have hchars := decodePairs_chars s.data 0 bs hd hlower
      rw [bytes_to_hex, ← hchars]

/-- Witness for amended C7 at a concrete lowercase string. -/
theorem encode_decode_lower_witness : bytes_to_hex [0xde, 0xad] = "dead" :=
  encode_decode_lower "dead" [0xde, 0xad] (by decide) (by decide)

/-- C8: `decode_hex` succeeds exactly on even-length strings of hex digit
characters (case-insensitive); `decode_hex ""` yields the empty sequence,
and `decode_hex "abc"` (odd length) and `decode_hex "zz"` (non-hex
character) fail with descriptive errors. -/
theorem decode_hex_domain :
    (∀ s : String, (∃ b, decode_hex s = .ok b) ↔
        (s.length % 2 = 0 ∧ ∀ c ∈ s.data, (hexVal c).isSome)) ∧
    decode_hex "" = .ok [] ∧
    decode_hex "abc" = .error "Odd number of digits" ∧
    decode_hex "zz" = .error "Invalid character 'z' at position 0" := by
  refine ⟨fun s => ?_, by decide, by decide, by decide⟩
  rw [decode_hex, hexCrateDecode]
  by_cases hlen : s.length % 2 ≠ 0
  · rw [if_pos hlen]
    constructor
    · rintro ⟨b, hb⟩; exact absurd hb (by simp [Except.mapError])
    · rintro ⟨h1, _⟩; exact absurd h1 hlen
  · rw [if_neg hlen]
    have hsl : s.length = s.data.length := rfl
    constructor
    · rintro ⟨b, hb⟩
      cases hd : decodePairs s.data 0 with
      | error e => rw [hd] at hb; exact absurd hb (by simp [Except.mapError])
      | ok bs =>
        have hiff := (decodePairs_isOk s.data 0).mp ⟨bs, hd⟩
        exact ⟨by omega, hiff.2⟩
    · rintro ⟨h1, h2⟩
      obtain ⟨b, hb⟩ := (decodePairs_isOk s.data 0).mpr ⟨by omega, h2⟩
      exact ⟨b, by rw [hb]; rfl⟩

/-- Witness for C8 at a concrete valid string. -/
theorem decode_hex_domain_witness : ∃ b, decode_hex "0aff" = .ok b :=
  (decode_hex_domain.1 "0aff").mpr ⟨by decide, by decide⟩

/-- C9: `hex_to_bytes` and `decode_hex` are the same decode operation up to
error shape: they succeed on the same strings with the same bytes, and on
failure `decode_hex`'s string error is the display rendering of
`hex_to_bytes`'s structured error. -/
theorem hex_to_bytes_equiv (s : String) :
    (∀ b, hex_to_bytes s = .ok b ↔ decode_hex s = .ok b) ∧
    (∀ e, hex_to_bytes s = .error e → decode_hex s = .error e.toDisplay) ∧
    ((∃ b, hex_to_bytes s = .ok b) ↔ (∃ b, decode_hex s = .ok b)) := by
  rw [decode_hex, hex_to_bytes]
  cases hexCrateDecode s with
  | ok b0 => simp [Except.mapError]
  | error e0 =>
    refine ⟨fun b => by simp [Except.mapError], fun e he => ?_, by simp [Except.mapError]⟩
    injection he with he
    rw [he]
    rfl

/-- Witness for C9 at concrete valid and invalid strings. -/
theorem hex_to_bytes_equiv_witness :
    decode_hex "abc" = .error (FromHexError.toDisplay FromHexError.OddLength) ∧
    (hex_to_bytes "0a" = .ok [10] ↔ decode_hex "0a" = .ok [10]) :=
  ⟨(hex_to_bytes_equiv "abc").2.1 FromHexError.OddLength (by decide),
   (hex_to_bytes_equiv "0a").1 [10]⟩

/-- C4: `parse_satoshis` returns the value of any decimal numeral string
below `2^64`; any failure (non-digit content, overflow, negative sign,
empty input) yields exactly the fixed error string and no other error. -/
theorem parse_satoshis_spec :
    (∀ s : String, s.data ≠ [] → (∀ c ∈ s.data, 48 ≤ c.toNat ∧ c.toNat ≤ 57) →
       decValFrom 0 s.data < 2 ^ 64 → parse_satoshis s = .ok (decValFrom 0 s.data)) ∧
    (∀ s : String, (∀ c ∈ s.data, 48 ≤ c.toNat ∧ c.toNat ≤ 57) →
       2 ^ 64 ≤ decValFrom 0 s.data →
       parse_satoshis s = .error "Invalid satoshi amount") ∧
    (∀ (s : String) (e : String), parse_satoshis s = .error e →
       e = "Invalid satoshi amount") ∧
    parse_satoshis "100" = .ok 100 ∧
    parse_satoshis "-1" = .error "Invalid satoshi amount" ∧
    parse_satoshis "abc" = .error "Invalid satoshi amount" ∧
    parse_satoshis "" = .error "Invalid satoshi amount" ∧
    parse_satoshis "18446744073709551616" = .error "Invalid satoshi amount" := by
  refine ⟨?_, ?_, ?_, by decide, by decide, by decide, by decide, by decide⟩
  · intro s hne hdig hlt
    rw [parse_satoshis, parseU64]
    cases hsd : s.data with
    | nil => exact absurd hsd hne
    | cons c rest =>
      rw [hsd] at hdig hlt
      have hc := hdig c (List.mem_cons_self c rest)
      have hcp : ¬(c = '+') := by
        intro he; rw [he] at hc; revert hc; decide
      simp only [parseU64Chars, if_neg hcp]
      rw [parseDigits_eq _ 0 (by norm_num), if_pos ⟨hdig, hlt⟩]
  · intro s hdig hge
    rw [parse_satoshis, parseU64]
    cases hsd : s.data with
    | nil =>
      rw [hsd] at hge
      exact absurd hge (by norm_num [decValFrom])
    | cons c rest =>
      rw [hsd] at hdig hge
      have hc := hdig c (List.mem_cons_self c rest)
      have hcp : ¬(c = '+') := by
        intro he; rw [he] at hc; revert hc; decide
      simp only [parseU64Chars, if_neg hcp]
      rw [parseDigits_eq _ 0 (by norm_num), if_neg]
      rintro ⟨_, hlt⟩
      omega
  · intro s e h
    rw [parse_satoshis, parseU64] at h
    cases hp : parseU64Chars s.data with
    | some n => rw [hp] at h; exact absurd h (by simp)
    | none =>
      rw [hp] at h
      injection h with h
      exact h.symm

/-- Witness for C4: the general components applied at `"100"` and at the
first over-`2^64` numeral. -/
theorem parse_satoshis_spec_witness :
    parse_satoshis "100" = .ok (decValFrom 0 "100".data) ∧
    parse_satoshis "18446744073709551616" = .error "Invalid satoshi amount" ∧
    "Invalid satoshi amount" = "Invalid satoshi amount" :=
  ⟨parse_satoshis_spec.1 "100" (by decide) (by decide) (by decide),
   parse_satoshis_spec.2.1 "18446744073709551616" (by decide) (by decide),
   parse_satoshis_spec.2.2.1 "abc" "Invalid satoshi amount" (by decide)⟩

/-- C10: `parse_satoshis` accepts an optional leading `+`: prepending `"+"`
to any all-digit string that parses to `n` still parses to `n`. -/
theorem parse_satoshis_plus (d : String) (n : Nat)
    (hdig : ∀ c ∈ d.data, 48 ≤ c.toNat ∧ c.toNat ≤ 57)
    (h : parse_satoshis d = .ok n) :
    parse_satoshis ("+" ++ d) = .ok n := by
  have hdata : ("+" ++ d).data = '+' :: d.data := by
    rw [String.data_append]; rfl
  cases hsd : d.data with
  | nil =>
    have hderr : parse_satoshis d = .error "Invalid satoshi amount" := by
      rw [parse_satoshis, parseU64, hsd]; rfl
    rw [hderr] at h
    exact absurd h (by simp)
  | cons c rest =>
    have hc : 48 ≤ c.toNat ∧ c.toNat ≤ 57 :=
      hdig c (by rw [hsd]; exact List.mem_cons_self c rest)
    have hcp : ¬(c = '+') := by
      intro he; rw [he] at hc; revert hc; decide
    have h' : parseDigits (c :: rest) 0 = some n := by
      rw [parse_satoshis, parseU64, hsd] at h
      simp only [parseU64Chars, if_neg hcp] at h
      cases hp : parseDigits (c :: rest) 0 with
      | some m => rw [hp] at h; injection h with h2; rw [h2]
      | none => rw [hp] at h; exact absurd h (by simp)
    rw [parse_satoshis, parseU64, hdata, hsd]
    simp only [parseU64Chars, if_pos rfl]
    rw [h']
    simp

/-- Witness for C10 at the concrete numeral `"100"`. -/
theorem parse_satoshis_plus_witness : parse_satoshis ("+" ++ "100") = .ok 100 :=
  parse_satoshis_plus "100" 100 (by decide) (by decide)

end RustWeek2
